import Mathlib

/-!
Verification of the mergething IPython history sync core
(`src/mergething/ipython.py`) against its specification.

The Python module is shallowly embedded: the filesystem is a listing of
file names, sqlite stores are explicit record structures, and each Python
function becomes a pure Lean function over those structures.  String
parsing (`Path.stem`, `str.split`, `str.replace`, `int(...)`) is modelled
by structural recursion over `String.data` so that every definition is
kernel-executable.

Modelling conventions, noted where they matter:
* `socket.gethostname()` / `time.time()` become explicit parameters
  (`currentHostname`, `now`).  Time is modelled at integer-second
  granularity, which is the granularity of the timestamps embedded in
  file names.
* `Path.glob` with the fixed patterns used by the module is a
  prefix/suffix match (`*` matches any, possibly empty, sequence of
  characters of a file name).
* Python `int(...)` is modelled for an optional sign followed by decimal
  digits; the exotic forms Python also accepts (surrounding whitespace,
  `+`) cannot occur in the generated file names.
* `Path.stem` is modelled as "drop the last `.`-suffix"; the special
  case of dot-files (names starting with `.`) does not arise for the
  `ipython_history_*` names handled here.
* A `sqlite3` row cursor is modelled by the list of rows it yields, in
  the order of the source query's `ORDER BY` clause.
-/

namespace MT

/-! ## String primitives (List Char level, all structural) -/

/-- Python `str.split(sep)` on character lists: keeps empty fields,
`"".split(sep) == [""]`. -/
def splitOnChar (sep : Char) : List Char → List (List Char)
  | [] => [[]]
  | c :: rest =>
    match splitOnChar sep rest with
    | [] => [[]]
    | g :: gs => if c = sep then [] :: g :: gs else (c :: g) :: gs

/-- Join character-list groups with a separator (inverse of `splitOnChar`). -/
def joinSep (sep : Char) : List (List Char) → List Char
  | [] => []
  | [g] => g
  | g :: gs => g ++ sep :: joinSep sep gs

/-- Python `str.replace(pat, "")`: remove every (leftmost, non-overlapping)
occurrence of `pat`.  Fuel-indexed so the recursion is structural; the fuel
is instantiated with the length of the scanned list, which suffices because
every step consumes at least one character. -/
def removeAllF (pat : List Char) : Nat → List Char → List Char
  | 0, l => l
  | _ + 1, [] => []
  | fuel + 1, c :: rest =>
    if pat.isPrefixOf (c :: rest) then removeAllF pat fuel (List.drop (pat.length - 1) rest)
    else c :: removeAllF pat fuel rest

/-- Decimal-digit accumulator for `int(...)`. -/
def digitsVal (acc : Nat) : List Char → Option Nat
  | [] => some acc
  | c :: r => if c.isDigit then digitsVal (10 * acc + (c.toNat - 48)) r else none

/-- Nonempty all-digit parse. -/
def digitsToNat? : List Char → Option Nat
  | [] => none
  | l => digitsVal 0 l

/-- Python `int(s)` (raising `ValueError` becomes `none`); an optional `-`
sign followed by decimal digits. -/
def pyInt? (s : String) : Option Int :=
  match s.data with
  | '-' :: rest => (digitsToNat? rest).map (fun n => -(n : Int))
  | l => (digitsToNat? l).map (fun n => (n : Int))

/-- Substring test (Python `sub in s` on the raw file name). -/
def containsSeg (pat : List Char) : List Char → Bool
  | [] => pat.isEmpty
  | c :: rest => pat.isPrefixOf (c :: rest) || containsSeg pat rest

/-- Python `sub in s`. -/
def strContains (s sub : String) : Bool := containsSeg sub.data s.data

/-- `Path.glob` for the fixed `<literal>*<literal>` patterns used by the
module: the name must carry the literal head and tail with `*` matching the
(possibly empty) remainder. -/
def globMatch (preS suf name : String) : Bool :=
  decide (preS.data.length + suf.data.length ≤ name.data.length) &&
    preS.data.isPrefixOf name.data && suf.data.isSuffixOf name.data

/-- `Path.stem`: the file name with its last `.`-suffix removed. -/
def pyStem (s : String) : String :=
  match splitOnChar '.' s.data with
  | [_] => s
  | gs => String.mk (joinSep '.' gs.dropLast)

/-- `file_path.stem.split('_')`. -/
def partsNoReplace (name : String) : List String :=
  (splitOnChar '_' (pyStem name).data).map String.mk

/-- `.replace('_completed', '')` on a stem. -/
def replaceCompleted (s : String) : String :=
  String.mk (removeAllF "_completed".data s.data.length s.data)

/-- `file_path.stem.replace('_completed', '').split('_')`. -/
def partsReplaced (name : String) : List String :=
  (splitOnChar '_' (replaceCompleted (pyStem name)).data).map String.mk

/-- Timestamp extracted from a file name:
`int(stem.replace('_completed','').split('_')[-1])`, `none` on
`ValueError`. -/
def parseNameTs (name : String) : Option Int :=
  pyInt? ((partsReplaced name).getLastD "")

/-! ## SourceFile catalog (`get_safe_files_for_merge`, lines 15-60) -/

/-- Glob `ipython_history_*_completed.db`. -/
def completedGlobMatch (name : String) : Bool :=
  globMatch "ipython_history_" "_completed.db" name

/-- Glob `ipython_history_*.db`. -/
def dbGlobMatch (name : String) : Bool :=
  globMatch "ipython_history_" ".db" name

/-- Loop 2 of `get_safe_files_for_merge` (lines 25-39): a regular
(non-completed) file is kept iff it is not the current file, does not
contain `_completed`, its stem splits into at least 4 `_`-fields, and
field 2 differs from the running host.  The `except (ValueError,
IndexError)` clause is dead code here: neither operation can raise. -/
def safeNonCompleted (currentHostname currentFile name : String) : Bool :=
  dbGlobMatch name && name != currentFile && !(strContains name "_completed") &&
    (let parts := partsNoReplace name
     decide (4 ≤ parts.length) && (parts.getD 2 "" != currentHostname))

/-- The `safe_files` list before sorting: all `_completed` files, then the
regular files from other machines (lines 20-39), in listing order. -/
def safeFilesUnsorted (listing : List String) (currentHostname currentFile : String) :
    List String :=
  listing.filter completedGlobMatch ++ listing.filter (safeNonCompleted currentHostname currentFile)

/-- The `sort_key` closure (lines 43-56).  With at least 4 fields it returns
`(is_this_machine, timestamp)`, falling back to `(False, 0)` when `int`
raises `ValueError`; with fewer than 4 fields the Python function falls off
its end and returns `None`, modelled as `none`. -/
def sort_key (currentHostname name : String) : Option (Bool × Int) :=
  let parts := partsReplaced name
  if 4 ≤ parts.length then
    match pyInt? (parts.getLastD "") with
    | some ts => some (parts.getD 2 "" == currentHostname, ts)
    | none => some (false, 0)
  else none

/-- Lexicographic order on the `(is_this_machine, timestamp)` keys,
`False < True`. -/
def keyLe (a b : Bool × Int) : Bool :=
  (!a.1 && b.1) || (a.1 == b.1 && decide (a.2 ≤ b.2))

/-- Stable insertion: place `x` before the first element `y` with
`le x y`.  Ties keep `x` (the originally earlier element) first, matching
the stability of Python's `list.sort`. -/
def insertSorted {α : Type} (le : α → α → Bool) (x : α) : List α → List α
  | [] => [x]
  | y :: ys => if le x y then x :: y :: ys else y :: insertSorted le x ys

/-- Stable sort by a boolean (total pre)order, matching Python `list.sort`. -/
def sortByStable {α : Type} (le : α → α → Bool) : List α → List α
  | [] => []
  | x :: xs => insertSorted le x (sortByStable le xs)

/-- `get_safe_files_for_merge(sync_dir, current_file)` over the directory
listing.  `safe_files.sort(key=sort_key, reverse=True)` raises `TypeError`
as soon as a `None` key is compared with a tuple key, which happens exactly
when the list has at least two elements and some element's key is `None`;
that outcome is modelled as `Except.error ()`.  Otherwise the list is
stably sorted by the key, descending (Python `reverse=True` keeps ties in
original order). -/
def get_safe_files_for_merge (listing : List String) (currentHostname currentFile : String) :
    Except Unit (List String) :=
  let safe := safeFilesUnsorted listing currentHostname currentFile
  if 2 ≤ safe.length && safe.any (fun f => (sort_key currentHostname f).isNone) then
    Except.error ()
  else
    Except.ok (sortByStable
      (fun a b => keyLe ((sort_key currentHostname b).getD (false, 0))
        ((sort_key currentHostname a).getD (false, 0))) safe)

/-! ## Retention cleaner (`cleanup_old_files`, lines 203-223) -/

/-- The per-file age test: parsed trailing timestamp strictly below the
cutoff; an unparsable timestamp (`ValueError`) skips the file. -/
def oldFileTest (cutoff : Int) (f : String) : Bool :=
  ((parseNameTs f).map (fun t => decide (t < cutoff))).getD false

/-- `cleanup_old_files(sync_dir, hostname, current_file, max_age_seconds)`:
returns the list of deleted file names.  The first pass deletes matches of
`ipython_history_{hostname}_*.db`; the second pass scans
`ipython_history_{hostname}_*_completed.db`, where files already removed by
the first pass are no longer on disk (their `unlink` would raise `OSError`,
caught per-file), modelled by the `!(del1.contains f)` guard. -/
def cleanup_old_files (listing : List String) (hostname currentFile : String)
    (now maxAge : Int) : List String :=
  let cutoff := now - maxAge
  let del1 := listing.filter (fun f =>
    globMatch ("ipython_history_" ++ hostname ++ "_") ".db" f &&
      f != currentFile && oldFileTest cutoff f)
  let del2 := listing.filter (fun f =>
    globMatch ("ipython_history_" ++ hostname ++ "_") "_completed.db" f &&
      !(del1.contains f) && f != currentFile && oldFileTest cutoff f)
  del1 ++ del2

/-! ## History merger data model (`merge_histories`, lines 63-200)

A source sqlite store is modelled by the rows its queries yield:
`sessions` rows in ascending `session` order (the `ORDER BY session` of
lines 121-125) and, per session, `history` rows ascending by `line`
(lines 131-136) and `output_history` rows ascending by `line`
(lines 143-148).  Metadata fields pass through the merge untouched, so
`start`/`end`/`num_cmds` are opaque `Option Int` (NULL = `none`) and
`remark` is `Option String`; the `end` column is called `stop` since `end`
is a Lean keyword. -/

structure Session where
  sid : Int
  start : Option Int
  stop : Option Int
  numCmds : Option Int
  remark : Option String
  commands : List (Int × Option String × Option String)
  outputs : List (Int × Option String)
deriving DecidableEq

structure Store where
  hasOutputHistory : Bool
  sessions : List Session
deriving DecidableEq

/-- One entry of the `source_files` argument: the file name, the
`stat().st_mtime` fallback (`none` = `OSError`), and the sqlite store
(`none` = `sqlite3.Error` on connect / first query: corrupt, locked or
missing file). -/
structure SourceFile where
  name : String
  mtime : Option Int
  db : Option Store
deriving DecidableEq

/-- A session signature (lines 151-160): the ordered command tuples and
output tuples with null text fields normalized to `""`. -/
abbrev Sig := List (Int × String × String) × List (Int × String)

/-- The target store's three tables, as lists of rows in insertion order.
Target session ids are the freshly assigned `next_session_id` values,
hence `Nat`. -/
structure Target where
  sessions : List (Nat × Option Int × Option Int × Option Int × Option String)
  history : List (Nat × Int × Option String × Option String)
  output_history : List (Nat × Int × Option String)
deriving DecidableEq

/-- Mutable state of the merge loop: the `seen_sessions` set (as a list),
`next_session_id`, and the target connection's uncommitted content. -/
structure MState where
  seen : List Sig
  nextId : Nat
  target : Target
deriving DecidableEq

/-- `outputs = []` unless the optional `output_history` table exists
(lines 141-149). -/
def sessionOuts (hasOut : Bool) (s : Session) : List (Int × Option String) :=
  if hasOut then s.outputs else []

/-- `session_signature = (commands_tuple, outputs_tuple)` (lines 151-160). -/
def sessionSig (hasOut : Bool) (s : Session) : Sig :=
  (s.commands.map (fun c => (c.1, c.2.1.getD "", c.2.2.getD "")),
   (sessionOuts hasOut s).map (fun o => (o.1, o.2.getD "")))

/-- `INSERT INTO sessions` (lines 169-172).  The `session` column is the
primary key, so inserting an id that is already present raises
`sqlite3.IntegrityError` (`none`). -/
def insertSessionRow (t : Target) (sid : Nat) (st en nc : Option Int) (rm : Option String) :
    Option Target :=
  if t.sessions.any (fun r => r.1 == sid) then none
  else some { t with sessions := t.sessions ++ [(sid, st, en, nc, rm)] }

/-- The `INSERT INTO history` loop (lines 175-179), primary key
`(session, line)`.  Returns the target after the inserts that succeeded
and whether an insert raised; rows inserted before the failing one are NOT
rolled back. -/
def insertCommands (t : Target) (sid : Nat) :
    List (Int × Option String × Option String) → Target × Bool
  | [] => (t, false)
  | c :: rest =>
    if t.history.any (fun r => r.1 == sid && r.2.1 == c.1) then (t, true)
    else insertCommands { t with history := t.history ++ [(sid, c.1, c.2.1, c.2.2)] } sid rest

/-- The `INSERT INTO output_history` loop (lines 182-186), primary key
`(session, line)`. -/
def insertOutputs (t : Target) (sid : Nat) : List (Int × Option String) → Target × Bool
  | [] => (t, false)
  | o :: rest =>
    if t.output_history.any (fun r => r.1 == sid && r.2.1 == o.1) then (t, true)
    else insertOutputs { t with output_history := t.output_history ++ [(sid, o.1, o.2)] } sid rest

/-- Body of the per-session loop (lines 127-188).  The boolean is `true`
when a `sqlite3.Error` was raised (propagating to the per-source
`except`); note that `seen_sessions.add` (line 166) has already happened
by then and that inserts performed before the failure stay on the target
connection. -/
def processSession (st : MState) (hasOut : Bool) (s : Session) : MState × Bool :=
  let outs := sessionOuts hasOut s
  let sig := sessionSig hasOut s
  if sig ∈ st.seen then (st, false)
  else
    match insertSessionRow st.target st.nextId s.start s.stop s.numCmds s.remark with
    | none => ({ st with seen := sig :: st.seen }, true)
    | some t1 =>
      match insertCommands t1 st.nextId s.commands with
      | (t2, true) => ({ st with seen := sig :: st.seen, target := t2 }, true)
      | (t2, false) =>
        match insertOutputs t2 st.nextId outs with
        | (t3, true) => ({ st with seen := sig :: st.seen, target := t3 }, true)
        | (t3, false) => (⟨sig :: st.seen, st.nextId + 1, t3⟩, false)

/-- The session loop over one source's `sessions` cursor: an error aborts
the rest of this source (the exception flies to the per-source handler). -/
def processSessions (st : MState) (hasOut : Bool) : List Session → MState
  | [] => st
  | s :: rest =>
    match processSession st hasOut s with
    | (st1, true) => st1
    | (st1, false) => processSessions st1 hasOut rest

/-- One iteration of the per-source loop (lines 109-195): a source whose
store cannot be opened or queried is skipped with a warning, leaving the
state unchanged; errors inside the session loop are caught by the same
`except sqlite3.Error` and also just continue with the next source. -/
def processSource (st : MState) (p : Int × SourceFile) : MState :=
  match p.2.db with
  | none => st
  | some store => processSessions st store.hasOutputHistory store.sessions

/-- Sort timestamp of a source (lines 88-100): the file-name timestamp,
else `int(stat().st_mtime)`; a source with neither is dropped from
`files_with_times`. -/
def fileTimestamp (sf : SourceFile) : Option Int :=
  match parseNameTs sf.name with
  | some t => some t
  | none => sf.mtime

/-- `files_with_times` before sorting (lines 87-100). -/
def filesWithTimes (sources : List SourceFile) : List (Int × SourceFile) :=
  sources.filterMap (fun sf => (fileTimestamp sf).map (fun t => (t, sf)))

/-- `files_with_times.sort(key=lambda x: x[0])`: stable, ascending. -/
def sortFiles (l : List (Int × SourceFile)) : List (Int × SourceFile) :=
  sortByStable (fun a b => decide (a.1 ≤ b.1)) l

/-- Fresh target and merge-loop state (`seen_sessions = set()`,
`next_session_id = 1`, empty tables). -/
def initState : MState := ⟨[], 1, ⟨[], [], []⟩⟩

/-- `merge_histories(source_files, target_file)`: the committed target,
plus the two reported counts `len(files_with_times)` and
`next_session_id - 1` (line 200). -/
def merge_histories (sources : List SourceFile) : Target × Nat × Nat :=
  let sorted := sortFiles (filesWithTimes sources)
  let final := sorted.foldl processSource initState
  (final.target, sorted.length, final.nextId - 1)

/-! ## Pure specification layer

`dedupNumber` performs the accept/skip decision of the merge loop and the
sequential numbering; `buildTarget` lays the accepted sessions out as
target rows.  Under the schema contract (primary keys on the source
tables, §6 of the spec) the concrete `merge_histories` is proved equal to
this composition. -/

/-- Signature of a `(has_output_history, session)` pair. -/
def sigOfPair (p : Bool × Session) : Sig := sessionSig p.1 p.2

/-- Content dedup with sequential numbering: keep the first occurrence of
each signature not in `seen`, numbering accepted sessions from `nid`. -/
def dedupNumber (seen : List Sig) (nid : Nat) : List (Bool × Session) → List (Nat × Bool × Session)
  | [] => []
  | p :: rest =>
    if sigOfPair p ∈ seen then dedupNumber seen nid rest
    else (nid, p.1, p.2) :: dedupNumber (sigOfPair p :: seen) (nid + 1) rest

/-- Final `(seen, next id)` after a `dedupNumber` pass. -/
def dedupState (seen : List Sig) (nid : Nat) : List (Bool × Session) → List Sig × Nat
  | [] => (seen, nid)
  | p :: rest =>
    if sigOfPair p ∈ seen then dedupState seen nid rest
    else dedupState (sigOfPair p :: seen) (nid + 1) rest

/-- The `sessions` row written for an accepted session. -/
def entryRow (e : Nat × Bool × Session) : Nat × Option Int × Option Int × Option Int × Option String :=
  (e.1, e.2.2.start, e.2.2.stop, e.2.2.numCmds, e.2.2.remark)

/-- The `history` rows written for an accepted session. -/
def entryCmdRows (e : Nat × Bool × Session) : List (Nat × Int × Option String × Option String) :=
  e.2.2.commands.map (fun c => (e.1, c.1, c.2.1, c.2.2))

/-- The `output_history` rows written for an accepted session. -/
def entryOutRows (e : Nat × Bool × Session) : List (Nat × Int × Option String) :=
  (sessionOuts e.2.1 e.2.2).map (fun o => (e.1, o.1, o.2))

/-- Target content generated by a list of accepted, numbered sessions. -/
def buildTarget (acc : List (Nat × Bool × Session)) : Target :=
  ⟨acc.map entryRow, (acc.map entryCmdRows).flatten, (acc.map entryOutRows).flatten⟩

/-- Sessions of one readable store, paired with its output-table flag. -/
def storeSessions (store : Store) : List (Bool × Session) :=
  store.sessions.map (fun s => (store.hasOutputHistory, s))

/-- All sessions the merge loop will consider, in processing order:
readable stores only, in the order of the (sorted) source list. -/
def flatSessions (l : List (Int × SourceFile)) : List (Bool × Session) :=
  ((l.filterMap (fun p => p.2.db)).map storeSessions).flatten

/-- Content of a target session, read back from the target tables and
normalized exactly as the signature computation normalizes source rows. -/
def targetSigOf (t : Target) (sid : Nat) : Sig :=
  ((t.history.filter (fun r => r.1 == sid)).map (fun r => (r.2.1, r.2.2.1.getD "", r.2.2.2.getD "")),
   (t.output_history.filter (fun r => r.1 == sid)).map (fun r => (r.2.1, r.2.2.getD "")))

/-! ## Well-formedness: the §6 schema contract for source stores

`history` and `output_history` carry `PRIMARY KEY (session, line)` and the
queries order by `line`, so the rows of one session have strictly
increasing `line` values.  A file that is a sqlite database but violates
this contract can drive the merge's target inserts into
`sqlite3.IntegrityError`; the happy-path theorems assume the contract. -/

/-- Strictly increasing list of integers. -/
def strictChain : List Int → Bool
  | a :: b :: r => decide (a < b) && strictChain (b :: r)
  | _ => true

/-- A session's command and output rows have strictly increasing lines. -/
def Session.wfB (s : Session) : Bool :=
  strictChain (s.commands.map (fun c => c.1)) && strictChain (s.outputs.map (fun o => o.1))

/-- All sessions of a store are well-formed. -/
def Store.wfB (st : Store) : Bool := st.sessions.all Session.wfB

/-- A source file is well-formed when its store (if readable) is. -/
def SourceFile.wfB (sf : SourceFile) : Bool :=
  match sf.db with
  | none => true
  | some st => Store.wfB st

/-! ## Basic lemmas -/

theorem strictChain_pairwise : ∀ l : List Int, strictChain l = true → l.Pairwise (· < ·)
  | [] => fun _ => List.Pairwise.nil
  | [_] => fun _ => List.pairwise_singleton _ _
  | a :: b :: r => fun h => by
    simp only [strictChain, Bool.and_eq_true, decide_eq_true_eq] at h
    have ih := strictChain_pairwise (b :: r) h.2
    rw [List.pairwise_cons]
    refine ⟨fun x hx => ?_, ih⟩
    rcases List.mem_cons.mp hx with rfl | hxr
    · exact h.1
    · exact lt_trans h.1 ((List.pairwise_cons.mp ih).1 x hxr)

theorem wfB_commands_pairwise (s : Session) (h : s.wfB = true) :
    s.commands.Pairwise (fun a b => a.1 < b.1) := by
  simp only [Session.wfB, Bool.and_eq_true] at h
  have := strictChain_pairwise _ h.1
  rwa [List.pairwise_map] at this

theorem wfB_outputs_pairwise (s : Session) (h : s.wfB = true) :
    s.outputs.Pairwise (fun a b => a.1 < b.1) := by
  simp only [Session.wfB, Bool.and_eq_true] at h
  have := strictChain_pairwise _ h.2
  rwa [List.pairwise_map] at this

theorem sessionOuts_pairwise (hasOut : Bool) (s : Session) (h : s.wfB = true) :
    (sessionOuts hasOut s).Pairwise (fun a b => a.1 < b.1) := by
  unfold sessionOuts
  cases hasOut with
  | false => simp
  | true => simpa using wfB_outputs_pairwise s h

theorem mem_insertSorted {α : Type} (le : α → α → Bool) (x y : α) :
    ∀ l : List α, y ∈ insertSorted le x l ↔ y = x ∨ y ∈ l
  | [] => by simp [insertSorted]
  | z :: zs => by
    rw [insertSorted]
    by_cases h : le x z = true
    · rw [if_pos h]
      simp [List.mem_cons]
    · rw [if_neg h]
      simp only [List.mem_cons, mem_insertSorted le x y zs]
      tauto

theorem mem_sortByStable {α : Type} (le : α → α → Bool) (y : α) :
    ∀ l : List α, y ∈ sortByStable le l ↔ y ∈ l
  | [] => by simp [sortByStable]
  | x :: xs => by
    simp only [sortByStable, mem_insertSorted, mem_sortByStable le y xs, List.mem_cons]

/-! ## Row-shape lemmas for `buildTarget` -/

theorem buildTarget_append_single (acc : List (Nat × Bool × Session)) (e : Nat × Bool × Session) :
    buildTarget (acc ++ [e]) =
      ⟨(buildTarget acc).sessions ++ [entryRow e],
       (buildTarget acc).history ++ entryCmdRows e,
       (buildTarget acc).output_history ++ entryOutRows e⟩ := by
  simp [buildTarget]

theorem mem_buildTarget_history (acc : List (Nat × Bool × Session))
    (r : Nat × Int × Option String × Option String) (hr : r ∈ (buildTarget acc).history) :
    ∃ e ∈ acc, r.1 = e.1 := by
  simp only [buildTarget, List.mem_flatten, List.mem_map] at hr
  obtain ⟨rows, ⟨e, he, rfl⟩, hrrows⟩ := hr
  refine ⟨e, he, ?_⟩
  simp only [entryCmdRows, List.mem_map] at hrrows
  obtain ⟨c, _, rfl⟩ := hrrows
  rfl

theorem mem_buildTarget_output (acc : List (Nat × Bool × Session))
    (r : Nat × Int × Option String) (hr : r ∈ (buildTarget acc).output_history) :
    ∃ e ∈ acc, r.1 = e.1 := by
  simp only [buildTarget, List.mem_flatten, List.mem_map] at hr
  obtain ⟨rows, ⟨e, he, rfl⟩, hrrows⟩ := hr
  refine ⟨e, he, ?_⟩
  simp only [entryOutRows, List.mem_map] at hrrows
  obtain ⟨o, _, rfl⟩ := hrrows
  rfl

/-! ## Success lemmas for the target inserts -/

theorem insertCommands_ok (sid : Nat) :
    ∀ (cmds : List (Int × Option String × Option String)) (t : Target),
    (∀ r ∈ t.history, r.1 = sid → r.2.1 ∉ cmds.map (fun c => c.1)) →
    cmds.Pairwise (fun a b => a.1 < b.1) →
    insertCommands t sid cmds =
      ({ t with history := t.history ++ cmds.map (fun c => (sid, c.1, c.2.1, c.2.2)) }, false)
  | [], t => fun _ _ => by simp [insertCommands]
  | c :: rest, t => fun hfresh hsort => by
    have hcheck : (t.history.any (fun r => r.1 == sid && r.2.1 == c.1)) = false := by
      rw [List.any_eq_false]
      intro r hr
      simp only [Bool.and_eq_true, beq_iff_eq, not_and]
      intro h1 h2
      exact hfresh r hr h1 (by simp only [List.mem_map]; exact ⟨c, List.mem_cons_self c rest, h2.symm⟩)
    rw [insertCommands, hcheck]
    simp only [Bool.false_eq_true, if_false]
    rw [insertCommands_ok sid rest _ ?_ (List.pairwise_cons.mp hsort).2]
    · simp
    · intro r hr h1 hmem
      simp only [List.mem_append, List.mem_singleton] at hr
      rcases hr with hr | hr
      · apply hfresh r hr h1
        simp only [List.mem_map] at hmem ⊢
        obtain ⟨w, hw, hweq⟩ := hmem
        exact ⟨w, List.mem_cons_of_mem _ hw, hweq⟩
      · subst hr
        simp only [List.mem_map] at hmem
        obtain ⟨c2, hc2, hc2eq⟩ := hmem
        have := (List.pairwise_cons.mp hsort).1 c2 hc2
        simp only [hc2eq] at this
        exact lt_irrefl _ this

theorem insertOutputs_ok (sid : Nat) :
    ∀ (outs : List (Int × Option String)) (t : Target),
    (∀ r ∈ t.output_history, r.1 = sid → r.2.1 ∉ outs.map (fun o => o.1)) →
    outs.Pairwise (fun a b => a.1 < b.1) →
    insertOutputs t sid outs =
      ({ t with output_history := t.output_history ++ outs.map (fun o => (sid, o.1, o.2)) }, false)
  | [], t => fun _ _ => by simp [insertOutputs]
  | o :: rest, t => fun hfresh hsort => by
    have hcheck : (t.output_history.any (fun r => r.1 == sid && r.2.1 == o.1)) = false := by
      rw [List.any_eq_false]
      intro r hr
      simp only [Bool.and_eq_true, beq_iff_eq, not_and]
      intro h1 h2
      exact hfresh r hr h1 (by simp only [List.mem_map]; exact ⟨o, List.mem_cons_self o rest, h2.symm⟩)
    rw [insertOutputs, hcheck]
    simp only [Bool.false_eq_true, if_false]
    rw [insertOutputs_ok sid rest _ ?_ (List.pairwise_cons.mp hsort).2]
    · simp
    · intro r hr h1 hmem
      simp only [List.mem_append, List.mem_singleton] at hr
      rcases hr with hr | hr
      · apply hfresh r hr h1
        simp only [List.mem_map] at hmem ⊢
        obtain ⟨w, hw, hweq⟩ := hmem
        exact ⟨w, List.mem_cons_of_mem _ hw, hweq⟩
      · subst hr
        simp only [List.mem_map] at hmem
        obtain ⟨o2, ho2, ho2eq⟩ := hmem
        have := (List.pairwise_cons.mp hsort).1 o2 ho2
        simp only [ho2eq] at this
        exact lt_irrefl _ this

/-! ## Closed forms of the per-session step -/

theorem processSession_skip (st : MState) (hasOut : Bool) (s : Session)
    (hmem : sessionSig hasOut s ∈ st.seen) :
    processSession st hasOut s = (st, false) := by
  simp [processSession, hmem]

theorem processSession_accept (seen : List Sig) (nid : Nat) (acc : List (Nat × Bool × Session))
    (hasOut : Bool) (s : Session)
    (hnew : sessionSig hasOut s ∉ seen)
    (hwf : Session.wfB s = true)
    (hbound : ∀ e ∈ acc, e.1 < nid) :
    processSession ⟨seen, nid, buildTarget acc⟩ hasOut s =
      (⟨sessionSig hasOut s :: seen, nid + 1, buildTarget (acc ++ [(nid, hasOut, s)])⟩, false) := by
  have hne : ∀ e ∈ acc, e.1 ≠ nid := fun e he => Nat.ne_of_lt (hbound e he)
  have hany : ((buildTarget acc).sessions.any (fun r => r.1 == nid)) = false := by
    rw [List.any_eq_false]
    intro r hr
    simp only [buildTarget, List.mem_map] at hr
    obtain ⟨e, he, rfl⟩ := hr
    simp only [entryRow, beq_iff_eq]
    exact hne e he
  have hrow : insertSessionRow (buildTarget acc) nid s.start s.stop s.numCmds s.remark =
      some ⟨(buildTarget acc).sessions ++ [(nid, s.start, s.stop, s.numCmds, s.remark)],
        (buildTarget acc).history, (buildTarget acc).output_history⟩ := by
    unfold insertSessionRow
    rw [hany]
    rfl
  have hfreshH : ∀ r ∈ (buildTarget acc).history, r.1 = nid →
      r.2.1 ∉ s.commands.map (fun c => c.1) := by
    intro r hr h1 _
    obtain ⟨e, he, hre⟩ := mem_buildTarget_history acc r hr
    exact hne e he (hre.symm.trans h1)
  have hfreshO : ∀ r ∈ (buildTarget acc).output_history, r.1 = nid →
      r.2.1 ∉ (sessionOuts hasOut s).map (fun o => o.1) := by
    intro r hr h1 _
    obtain ⟨e, he, hre⟩ := mem_buildTarget_output acc r hr
    exact hne e he (hre.symm.trans h1)
  have hcmds := insertCommands_ok nid s.commands
    ⟨(buildTarget acc).sessions ++ [(nid, s.start, s.stop, s.numCmds, s.remark)],
      (buildTarget acc).history, (buildTarget acc).output_history⟩ hfreshH
    (wfB_commands_pairwise s hwf)
  have houts := insertOutputs_ok nid (sessionOuts hasOut s)
    ⟨(buildTarget acc).sessions ++ [(nid, s.start, s.stop, s.numCmds, s.remark)],
      (buildTarget acc).history ++ s.commands.map (fun c => (nid, c.1, c.2.1, c.2.2)),
      (buildTarget acc).output_history⟩ hfreshO
    (sessionOuts_pairwise hasOut s hwf)
  simp only [processSession, hnew, if_neg, not_false_iff, if_false, hrow, hcmds, houts,
    buildTarget_append_single]
  simp [entryRow, entryCmdRows, entryOutRows]

/-! ## Dedup bookkeeping lemmas -/

theorem dedupState_nid (seen : List Sig) (nid : Nat) :
    ∀ l : List (Bool × Session),
    (dedupState seen nid l).2 = nid + (dedupNumber seen nid l).length := by
  intro l
  induction l generalizing seen nid with
  | nil => simp [dedupState, dedupNumber]
  | cons p rest ih =>
    by_cases h : sigOfPair p ∈ seen
    · simp [dedupState, dedupNumber, h, ih]
    · simp only [dedupState, dedupNumber, h, if_neg, not_false_iff, if_false]
      rw [ih]
      simp only [List.length_cons]
      omega

theorem dedupState_seen_mem (x : Sig) :
    ∀ (l : List (Bool × Session)) (seen : List Sig) (nid : Nat),
    x ∈ (dedupState seen nid l).1 ↔ x ∈ seen ∨ x ∈ l.map sigOfPair
  | [], seen, nid => by simp [dedupState]
  | p :: rest, seen, nid => by
    by_cases h : sigOfPair p ∈ seen
    · rw [dedupState, if_pos h, dedupState_seen_mem x rest seen nid]
      simp only [List.map_cons, List.mem_cons]
      constructor
      · tauto
      · rintro (hx | rfl | hx) <;> tauto
    · rw [dedupState, if_neg h, dedupState_seen_mem x rest _ _]
      simp only [List.map_cons, List.mem_cons]
      tauto

theorem dedupNumber_append (l1 l2 : List (Bool × Session)) :
    ∀ (seen : List Sig) (nid : Nat),
    dedupNumber seen nid (l1 ++ l2) =
      dedupNumber seen nid l1 ++
        dedupNumber (dedupState seen nid l1).1 (dedupState seen nid l1).2 l2 := by
  induction l1 with
  | nil => intro seen nid; simp [dedupNumber, dedupState]
  | cons p rest ih =>
    intro seen nid
    by_cases h : sigOfPair p ∈ seen
    · simp only [List.cons_append, dedupNumber, dedupState, h, if_pos]
      exact ih seen nid
    · simp only [List.cons_append, dedupNumber, dedupState, h, if_neg, not_false_iff, if_false]
      exact congrArg (List.cons _) (ih _ _)

theorem dedupState_append (l1 l2 : List (Bool × Session)) :
    ∀ (seen : List Sig) (nid : Nat),
    dedupState seen nid (l1 ++ l2) =
      dedupState (dedupState seen nid l1).1 (dedupState seen nid l1).2 l2 := by
  induction l1 with
  | nil => intro seen nid; simp [dedupState]
  | cons p rest ih =>
    intro seen nid
    by_cases h : sigOfPair p ∈ seen
    · simp only [List.cons_append, dedupState, h, if_pos]
      exact ih seen nid
    · simp only [List.cons_append, dedupState, h, if_neg, not_false_iff, if_false]
      exact ih _ _

theorem dedupNumber_ids (l : List (Bool × Session)) :
    ∀ (seen : List Sig) (nid : Nat),
    (dedupNumber seen nid l).map (fun e => e.1) =
      List.range' nid (dedupNumber seen nid l).length := by
  induction l with
  | nil => intro seen nid; simp [dedupNumber]
  | cons p rest ih =>
    intro seen nid
    by_cases h : sigOfPair p ∈ seen
    · simp only [dedupNumber, h, if_pos]
      exact ih seen nid
    · simp only [dedupNumber, h, if_neg, not_false_iff, if_false, List.map_cons,
        List.length_cons, List.range'_succ]
      rw [ih]

theorem dedupNumber_id_lt (l : List (Bool × Session)) (seen : List Sig) (nid : Nat)
    (e : Nat × Bool × Session) (he : e ∈ dedupNumber seen nid l) :
    nid ≤ e.1 ∧ e.1 < (dedupState seen nid l).2 := by
  have h1 : e.1 ∈ (dedupNumber seen nid l).map (fun e => e.1) :=
    List.mem_map.mpr ⟨e, he, rfl⟩
  rw [dedupNumber_ids] at h1
  rw [dedupState_nid]
  exact List.mem_range'_1.mp h1

theorem dedupNumber_mem_pair (l : List (Bool × Session)) :
    ∀ (seen : List Sig) (nid : Nat) (e : Nat × Bool × Session),
    e ∈ dedupNumber seen nid l → e.2 ∈ l := by
  induction l with
  | nil => intro seen nid e he; simp [dedupNumber] at he
  | cons p rest ih =>
    intro seen nid e he
    by_cases h : sigOfPair p ∈ seen
    · rw [dedupNumber, if_pos h] at he
      exact List.mem_cons_of_mem _ (ih seen nid e he)
    · rw [dedupNumber, if_neg h] at he
      rcases List.mem_cons.mp he with rfl | he2
      · exact List.mem_cons_self _ _
      · exact List.mem_cons_of_mem _ (ih _ _ e he2)

theorem dedupNumber_first_occ (l : List (Bool × Session)) :
    ∀ (seen : List Sig) (nid : Nat) (e : Nat × Bool × Session),
    e ∈ dedupNumber seen nid l →
      sigOfPair e.2 ∉ seen ∧
      ∃ l1 l2, l = l1 ++ e.2 :: l2 ∧ ∀ p ∈ l1, sigOfPair p ≠ sigOfPair e.2 := by
  induction l with
  | nil => intro seen nid e he; simp [dedupNumber] at he
  | cons p rest ih =>
    intro seen nid e he
    by_cases h : sigOfPair p ∈ seen
    · rw [dedupNumber, if_pos h] at he
      obtain ⟨hnot, l1, l2, hsplit, hne⟩ := ih seen nid e he
      refine ⟨hnot, p :: l1, l2, by rw [hsplit]; rfl, ?_⟩
      intro q hq
      rcases List.mem_cons.mp hq with rfl | hq2
      · intro hcontra
        exact hnot (hcontra ▸ h)
      · exact hne q hq2
    · rw [dedupNumber, if_neg h] at he
      rcases List.mem_cons.mp he with rfl | he2
      · exact ⟨h, [], rest, rfl, by simp⟩
      · obtain ⟨hnot, l1, l2, hsplit, hne⟩ := ih _ _ e he2
        have hnotseen : sigOfPair e.2 ∉ seen := fun hc => hnot (List.mem_cons_of_mem _ hc)
        have hnep : sigOfPair e.2 ≠ sigOfPair p := fun hc => hnot (hc ▸ List.mem_cons_self _ _)
        refine ⟨hnotseen, p :: l1, l2, by rw [hsplit]; rfl, ?_⟩
        intro q hq
        rcases List.mem_cons.mp hq with rfl | hq2
        · exact fun hc => hnep hc.symm
        · exact hne q hq2

theorem dedupNumber_complete (l : List (Bool × Session)) :
    ∀ (seen : List Sig) (nid : Nat) (σ : Sig),
    σ ∉ seen → σ ∈ l.map sigOfPair →
    ∃ e ∈ dedupNumber seen nid l, sigOfPair e.2 = σ := by
  induction l with
  | nil => intro seen nid σ _ hmem; simp at hmem
  | cons p rest ih =>
    intro seen nid σ hnot hmem
    simp only [List.map_cons, List.mem_cons] at hmem
    by_cases h : sigOfPair p ∈ seen
    · rw [dedupNumber, if_pos h]
      rcases hmem with rfl | hmem2
      · exact absurd h hnot
      · exact ih seen nid σ hnot hmem2
    · rw [dedupNumber, if_neg h]
      rcases hmem with rfl | hmem2
      · exact ⟨(nid, p.1, p.2), List.mem_cons_self _ _, rfl⟩
      · by_cases hp : σ = sigOfPair p
        · exact ⟨(nid, p.1, p.2), List.mem_cons_self _ _, hp.symm⟩
        · obtain ⟨e, he, hesig⟩ := ih (sigOfPair p :: seen) (nid + 1) σ
            (by simp only [List.mem_cons]; tauto) hmem2
          exact ⟨e, List.mem_cons_of_mem _ he, hesig⟩

theorem dedupNumber_sig_nodup (l : List (Bool × Session)) :
    ∀ (seen : List Sig) (nid : Nat),
    ((dedupNumber seen nid l).map (fun e => sigOfPair e.2)).Nodup := by
  induction l with
  | nil => intro seen nid; simp [dedupNumber]
  | cons p rest ih =>
    intro seen nid
    by_cases h : sigOfPair p ∈ seen
    · rw [dedupNumber, if_pos h]
      exact ih seen nid
    · rw [dedupNumber, if_neg h]
      simp only [List.map_cons, List.nodup_cons]
      refine ⟨?_, ih _ _⟩
      intro hc
      simp only [List.mem_map] at hc
      obtain ⟨e, he, hesig⟩ := hc
      have := (dedupNumber_first_occ rest _ _ e he).1
      exact this (hesig ▸ List.mem_cons_self _ _)

theorem dedupNumber_length_card (l : List (Bool × Session)) :
    ∀ (seen : List Sig) (nid : Nat),
    (dedupNumber seen nid l).length = ((l.map sigOfPair).toFinset \ seen.toFinset).card := by
  induction l with
  | nil => intro seen nid; simp [dedupNumber]
  | cons p rest ih =>
    intro seen nid
    simp only [List.map_cons, List.toFinset_cons]
    by_cases h : sigOfPair p ∈ seen
    · rw [dedupNumber, if_pos h, ih seen nid]
      congr 1
      rw [Finset.insert_sdiff_of_mem _ (List.mem_toFinset.mpr h)]
    · rw [dedupNumber, if_neg h]
      simp only [List.length_cons, ih (sigOfPair p :: seen) (nid + 1)]
      rw [Finset.insert_sdiff_of_not_mem _ (fun hc => h (List.mem_toFinset.mp hc))]
      have hrw : (rest.map sigOfPair).toFinset \ (sigOfPair p :: seen).toFinset =
          ((rest.map sigOfPair).toFinset \ seen.toFinset).erase (sigOfPair p) := by
        ext x
        simp only [Finset.mem_sdiff, Finset.mem_erase, List.toFinset_cons, Finset.mem_insert,
          List.mem_toFinset]
        tauto
      rw [hrw]
      by_cases hmem : sigOfPair p ∈ (rest.map sigOfPair).toFinset \ seen.toFinset
      · rw [Finset.insert_eq_self.mpr hmem]
        exact Finset.card_erase_add_one hmem
      · rw [Finset.erase_eq_of_not_mem hmem, Finset.card_insert_of_not_mem hmem]

/-! ## The fold bridge: concrete merge = dedup + layout -/

theorem processSessions_eq (hasOut : Bool) :
    ∀ (sl : List Session) (seen : List Sig) (nid : Nat) (acc : List (Nat × Bool × Session)),
    (∀ s ∈ sl, s.wfB = true) → (∀ e ∈ acc, e.1 < nid) →
    processSessions ⟨seen, nid, buildTarget acc⟩ hasOut sl =
      ⟨(dedupState seen nid (sl.map (fun s => (hasOut, s)))).1,
       (dedupState seen nid (sl.map (fun s => (hasOut, s)))).2,
       buildTarget (acc ++ dedupNumber seen nid (sl.map (fun s => (hasOut, s))))⟩ := by
  intro sl
  induction sl with
  | nil => intro seen nid acc _ _; simp [processSessions, dedupState, dedupNumber]
  | cons s rest ih =>
    intro seen nid acc hwf hbound
    have hσ : sigOfPair (hasOut, s) = sessionSig hasOut s := rfl
    by_cases h : sessionSig hasOut s ∈ seen
    · rw [processSessions, processSession_skip _ _ _ h]
      simp only [List.map_cons, dedupState, dedupNumber, hσ, h, if_pos]
      exact ih seen nid acc (fun x hx => hwf x (List.mem_cons_of_mem _ hx)) hbound
    · rw [processSessions,
        processSession_accept seen nid acc hasOut s h (hwf s (List.mem_cons_self _ _)) hbound]
      simp only [List.map_cons, dedupState, dedupNumber, hσ, h, if_neg, not_false_iff, if_false]
      rw [ih (sessionSig hasOut s :: seen) (nid + 1) (acc ++ [(nid, hasOut, s)])
        (fun x hx => hwf x (List.mem_cons_of_mem _ hx)) ?bound]
      · rw [List.append_assoc]
        rfl
      case bound =>
        intro e he
        rcases List.mem_append.mp he with he1 | he2
        · exact Nat.lt_succ_of_lt (hbound e he1)
        · simp only [List.mem_singleton] at he2
          subst he2
          exact Nat.lt_succ_self _

theorem foldl_processSource_eq :
    ∀ (l : List (Int × SourceFile)) (seen : List Sig) (nid : Nat)
      (acc : List (Nat × Bool × Session)),
    (∀ p ∈ l, p.2.wfB = true) → (∀ e ∈ acc, e.1 < nid) →
    l.foldl processSource ⟨seen, nid, buildTarget acc⟩ =
      ⟨(dedupState seen nid (flatSessions l)).1,
       (dedupState seen nid (flatSessions l)).2,
       buildTarget (acc ++ dedupNumber seen nid (flatSessions l))⟩ := by
  intro l
  induction l with
  | nil => intro seen nid acc _ _; simp [flatSessions, dedupState, dedupNumber]
  | cons p rest ih =>
    intro seen nid acc hwf hbound
    match hdb : p.2.db with
    | none =>
      have hflat : flatSessions (p :: rest) = flatSessions rest := by
        simp [flatSessions, List.filterMap_cons, hdb]
      rw [List.foldl_cons, show processSource ⟨seen, nid, buildTarget acc⟩ p =
          ⟨seen, nid, buildTarget acc⟩ by simp [processSource, hdb], hflat]
      exact ih seen nid acc (fun q hq => hwf q (List.mem_cons_of_mem _ hq)) hbound
    | some store =>
      have hstwf : ∀ s ∈ store.sessions, s.wfB = true := by
        have := hwf p (List.mem_cons_self _ _)
        rw [SourceFile.wfB, hdb] at this
        exact fun s hs => List.all_eq_true.mp this s hs
      have hflat : flatSessions (p :: rest) = storeSessions store ++ flatSessions rest := by
        simp [flatSessions, List.filterMap_cons, hdb, storeSessions]
      have hsrc : processSource ⟨seen, nid, buildTarget acc⟩ p =
          ⟨(dedupState seen nid (storeSessions store)).1,
           (dedupState seen nid (storeSessions store)).2,
           buildTarget (acc ++ dedupNumber seen nid (storeSessions store))⟩ := by
        rw [processSource, hdb]
        exact processSessions_eq store.hasOutputHistory store.sessions seen nid acc hstwf hbound
      rw [List.foldl_cons, hsrc, hflat,
        ih _ _ _ (fun q hq => hwf q (List.mem_cons_of_mem _ hq)) ?bound]
      · rw [dedupNumber_append, dedupState_append, List.append_assoc]
      case bound =>
        intro e he
        rcases List.mem_append.mp he with he1 | he2
        · calc e.1 < nid := hbound e he1
            _ ≤ (dedupState seen nid (storeSessions store)).2 := by
              rw [dedupState_nid]; omega
        · exact (dedupNumber_id_lt _ _ _ e he2).2

theorem merge_histories_eq (sources : List SourceFile)
    (hwf : ∀ sf ∈ sources, sf.wfB = true) :
    merge_histories sources =
      (buildTarget (dedupNumber [] 1 (flatSessions (sortFiles (filesWithTimes sources)))),
       (sortFiles (filesWithTimes sources)).length,
       (dedupNumber [] 1 (flatSessions (sortFiles (filesWithTimes sources)))).length) := by
  have hwf' : ∀ p ∈ sortFiles (filesWithTimes sources), p.2.wfB = true := by
    intro p hp
    rw [sortFiles, mem_sortByStable] at hp
    rw [filesWithTimes, List.mem_filterMap] at hp
    obtain ⟨sf, hsf, heq⟩ := hp
    rcases Option.map_eq_some'.mp heq with ⟨t, _, rfl⟩
    exact hwf sf hsf
  have hinit : initState = ⟨[], 1, buildTarget []⟩ := rfl
  rw [merge_histories, hinit,
    foldl_processSource_eq (sortFiles (filesWithTimes sources)) [] 1 [] hwf' (by simp)]
  simp only [List.nil_append]
  rw [dedupState_nid]
  simp

/-! ## Reading a session's content back from the target -/

theorem buildTarget_cons (a : Nat × Bool × Session) (acc : List (Nat × Bool × Session)) :
    buildTarget (a :: acc) =
      ⟨entryRow a :: (buildTarget acc).sessions,
       entryCmdRows a ++ (buildTarget acc).history,
       entryOutRows a ++ (buildTarget acc).output_history⟩ := by
  simp [buildTarget]

theorem filter_entryCmdRows_self (e : Nat × Bool × Session) :
    (entryCmdRows e).filter (fun r => r.1 == e.1) = entryCmdRows e := by
  rw [List.filter_eq_self]
  intro r hr
  simp only [entryCmdRows, List.mem_map] at hr
  obtain ⟨c, _, rfl⟩ := hr
  simp

theorem filter_entryOutRows_self (e : Nat × Bool × Session) :
    (entryOutRows e).filter (fun r => r.1 == e.1) = entryOutRows e := by
  rw [List.filter_eq_self]
  intro r hr
  simp only [entryOutRows, List.mem_map] at hr
  obtain ⟨o, _, rfl⟩ := hr
  simp

theorem filter_entryCmdRows_ne (a : Nat × Bool × Session) (i : Nat) (h : a.1 ≠ i) :
    (entryCmdRows a).filter (fun r => r.1 == i) = [] := by
  rw [List.filter_eq_nil_iff]
  intro r hr
  simp only [entryCmdRows, List.mem_map] at hr
  obtain ⟨c, _, rfl⟩ := hr
  simp [h]

theorem filter_entryOutRows_ne (a : Nat × Bool × Session) (i : Nat) (h : a.1 ≠ i) :
    (entryOutRows a).filter (fun r => r.1 == i) = [] := by
  rw [List.filter_eq_nil_iff]
  intro r hr
  simp only [entryOutRows, List.mem_map] at hr
  obtain ⟨o, _, rfl⟩ := hr
  simp [h]

theorem targetSigOf_buildTarget :
    ∀ acc : List (Nat × Bool × Session), (acc.map (fun e => e.1)).Nodup →
    ∀ e ∈ acc, targetSigOf (buildTarget acc) e.1 = sigOfPair e.2 := by
  intro acc
  induction acc with
  | nil => intro _ e he; simp at he
  | cons a acc' ih =>
    intro hnodup e he
    rw [List.map_cons, List.nodup_cons] at hnodup
    rw [buildTarget_cons]
    rcases List.mem_cons.mp he with rfl | he2
    · have hnil1 : (buildTarget acc').history.filter (fun r => r.1 == e.1) = [] := by
        rw [List.filter_eq_nil_iff]
        intro r hr
        obtain ⟨e2, he2, hre⟩ := mem_buildTarget_history acc' r hr
        simp only [beq_iff_eq]
        intro hc
        exact hnodup.1 (List.mem_map.mpr ⟨e2, he2, (hre.symm.trans hc).symm ▸ rfl⟩)
      have hnil2 : (buildTarget acc').output_history.filter (fun r => r.1 == e.1) = [] := by
        rw [List.filter_eq_nil_iff]
        intro r hr
        obtain ⟨e2, he2, hre⟩ := mem_buildTarget_output acc' r hr
        simp only [beq_iff_eq]
        intro hc
        exact hnodup.1 (List.mem_map.mpr ⟨e2, he2, (hre.symm.trans hc).symm ▸ rfl⟩)
      simp only [targetSigOf, List.filter_append, filter_entryCmdRows_self,
        filter_entryOutRows_self, hnil1, hnil2, List.append_nil]
      simp [entryCmdRows, entryOutRows, sigOfPair, sessionSig, List.map_map, Function.comp_def]
    · have hne : a.1 ≠ e.1 := by
        intro hc
        exact hnodup.1 (List.mem_map.mpr ⟨e, he2, hc.symm⟩)
      simp only [targetSigOf, List.filter_append, filter_entryCmdRows_ne a e.1 hne,
        filter_entryOutRows_ne a e.1 hne, List.nil_append]
      exact ih hnodup.2 e he2

/-! ## Permutation and membership helpers -/

theorem insertSorted_perm {α : Type} (le : α → α → Bool) (x : α) :
    ∀ l : List α, List.Perm (insertSorted le x l) (x :: l)
  | [] => List.Perm.refl _
  | y :: ys => by
    rw [insertSorted]
    by_cases h : le x y = true
    · rw [if_pos h]
    · rw [if_neg h]
      exact ((insertSorted_perm le x ys).cons y).trans (List.Perm.swap x y ys)

theorem sortByStable_perm {α : Type} (le : α → α → Bool) :
    ∀ l : List α, List.Perm (sortByStable le l) l
  | [] => List.Perm.refl _
  | x :: xs => (insertSorted_perm le x (sortByStable le xs)).trans
      ((sortByStable_perm le xs).cons x)

theorem flatSessions_perm {l1 l2 : List (Int × SourceFile)} (h : List.Perm l1 l2) :
    List.Perm (flatSessions l1) (flatSessions l2) :=
  ((h.filterMap _).map storeSessions).flatten

theorem mem_flatSessions (l : List (Int × SourceFile)) (p : Int × SourceFile) (hp : p ∈ l)
    (store : Store) (hdb : p.2.db = some store) (s : Session) (hs : s ∈ store.sessions) :
    (store.hasOutputHistory, s) ∈ flatSessions l := by
  simp only [flatSessions, List.mem_flatten, List.mem_map]
  refine ⟨storeSessions store, ⟨store, List.mem_filterMap.mpr ⟨p, hp, hdb⟩, rfl⟩, ?_⟩
  simp only [storeSessions, List.mem_map]
  exact ⟨s, hs, rfl⟩

theorem mem_sorted_files (sources : List SourceFile) (sf : SourceFile) (t : Int)
    (hsf : sf ∈ sources) (ht : fileTimestamp sf = some t) :
    (t, sf) ∈ sortFiles (filesWithTimes sources) := by
  rw [sortFiles, mem_sortByStable, filesWithTimes, List.mem_filterMap]
  exact ⟨sf, hsf, by rw [ht]; rfl⟩

theorem nodup_filter_length_one {α β : Type} [DecidableEq β] (f : α → β) :
    ∀ l : List α, (l.map f).Nodup → ∀ b, b ∈ l.map f →
    (l.filter (fun a => decide (f a = b))).length = 1
  | [] => by simp
  | a :: l => by
    intro hnd b hb
    rw [List.map_cons, List.nodup_cons] at hnd
    rw [List.map_cons, List.mem_cons] at hb
    rw [List.filter_cons]
    by_cases hab : f a = b
    · subst hab
      rw [if_pos (by simp)]
      have hrest : l.filter (fun x => decide (f x = f a)) = [] := by
        rw [List.filter_eq_nil_iff]
        intro x hx
        simp only [decide_eq_true_eq]
        intro hc
        exact hnd.1 (hc ▸ List.mem_map.mpr ⟨x, hx, rfl⟩)
      rw [hrest]
      rfl
    · rw [if_neg (by simpa using hab)]
      refine nodup_filter_length_one f l hnd.2 b ?_
      rcases hb with hb1 | hb2
      · exact absurd hb1.symm hab
      · exact hb2

/-! ## Concrete fixtures used by witnesses and counterexamples -/

/-- A session with two commands and one output. -/
def demoSessionA : Session :=
  ⟨1, some 10, some 20, some 2, none,
   [(1, some "a", some "ar"), (2, some "b", some "br")], [(1, some "o1")]⟩

/-- A later copy of `demoSessionA`: identical command/output content, but a
different original session id and different metadata. -/
def demoSessionDup : Session :=
  ⟨7, some 99, some 98, some 2, some "later copy",
   [(1, some "a", some "ar"), (2, some "b", some "br")], [(1, some "o1")]⟩

/-- A session with different content. -/
def demoSessionB : Session :=
  ⟨1, none, none, some 1, none, [(1, some "c", none)], []⟩

def demoStoreA : Store := ⟨true, [demoSessionA]⟩

def demoStoreDup : Store := ⟨true, [demoSessionDup, demoSessionB]⟩

def demoStoreB : Store := ⟨false, [demoSessionB]⟩

/-- Source timestamped 100 from its name. -/
def demoFileA : SourceFile := ⟨"ipython_history_hostA_1_100.db", none, some demoStoreA⟩

/-- Completed source timestamped 200, holding a duplicate of `demoSessionA`
under another session id plus a fresh session. -/
def demoFileDup : SourceFile :=
  ⟨"ipython_history_hostB_3_200_completed.db", none, some demoStoreDup⟩

/-- Source timestamped 200 with content disjoint from `demoFileA`. -/
def demoFileB : SourceFile := ⟨"ipython_history_hostB_5_200.db", none, some demoStoreB⟩

/-- A corrupt source: the name parses, but sqlite cannot read it. -/
def demoCorrupt : SourceFile := ⟨"ipython_history_hostC_9_150.db", none, none⟩

/-! ## Claim theorems -/

/-- C1: `get_safe_files_for_merge` returns exactly the safe set.  A file is
in the pre-sort safe list iff it is a listed `*_completed.db` file (any
host), or a listed regular `ipython_history_*.db` file that is not the
in-progress file, carries no `_completed` marker, and whose parsed hostname
field differs from the running host; the returned (sorted) list has the
same members; and on the spec's concrete directory, running as `hostA` with
in-progress file `ipython_history_hostA_999_2000.db`, the result is exactly
{hostA_1000_completed, hostB_200_1000}. -/
theorem catalog_safe_set :
    (∀ (listing : List String) (ch cf f : String),
      f ∈ safeFilesUnsorted listing ch cf ↔
        f ∈ listing ∧ (completedGlobMatch f = true ∨ safeNonCompleted ch cf f = true)) ∧
    (∀ (listing : List String) (ch cf : String) (l : List String) (f : String),
      get_safe_files_for_merge listing ch cf = Except.ok l →
      (f ∈ l ↔ f ∈ safeFilesUnsorted listing ch cf)) ∧
    get_safe_files_for_merge
      ["ipython_history_hostA_100_1000.db", "ipython_history_hostA_1000_completed.db",
       "ipython_history_hostB_200_1000.db", "ipython_history_hostA_999_2000.db"]
      "hostA" "ipython_history_hostA_999_2000.db" =
      Except.ok ["ipython_history_hostA_1000_completed.db", "ipython_history_hostB_200_1000.db"] := by
  refine ⟨?_, ?_, rfl⟩
  · intro listing ch cf f
    simp only [safeFilesUnsorted, List.mem_append, List.mem_filter]
    tauto
  · intro listing ch cf l f h
    simp only [get_safe_files_for_merge] at h
    by_cases hc : (2 ≤ (safeFilesUnsorted listing ch cf).length &&
        (safeFilesUnsorted listing ch cf).any fun g => (sort_key ch g).isNone) = true
    · rw [if_pos hc] at h
      cases h
    · rw [if_neg hc] at h
      rw [Except.ok.injEq] at h
      subst h
      exact mem_sortByStable _ f _

/-- C5: `cleanup_old_files` deletes a file of the given host (matching
either naming pattern), other than the in-use file and with a parseable
trailing timestamp, iff that timestamp is strictly below `now - maxAge`;
concretely with `now = 1000`, `maxAge = 300`, the file timestamped 700
(= now - maxAge) survives while the one timestamped 699 is deleted. -/
theorem cleanup_age_boundary :
    (∀ (listing : List String) (h cf : String) (now maxAge : Int) (f : String) (tval : Int),
      f ∈ listing →
      (globMatch ("ipython_history_" ++ h ++ "_") ".db" f = true ∨
        globMatch ("ipython_history_" ++ h ++ "_") "_completed.db" f = true) →
      f ≠ cf → parseNameTs f = some tval →
      (f ∈ cleanup_old_files listing h cf now maxAge ↔ tval < now - maxAge)) ∧
    cleanup_old_files ["ipython_history_hostA_1_700.db", "ipython_history_hostA_1_699.db"]
      "hostA" "cur.db" 1000 300 = ["ipython_history_hostA_1_699.db"] := by
  refine ⟨?_, rfl⟩
  intro listing h cf now maxAge f tval hmem hglob hne hparse
  have holdt : oldFileTest (now - maxAge) f = decide (tval < now - maxAge) := by
    simp [oldFileTest, hparse]
  simp only [cleanup_old_files, List.mem_append, List.mem_filter, Bool.and_eq_true,
    bne_iff_ne, ne_eq, holdt, decide_eq_true_eq]
  constructor
  · rintro (⟨_, _, hc⟩ | ⟨_, _, hc⟩) <;> exact hc
  · intro hlt
    rcases hglob with hg1 | hg2
    · exact Or.inl ⟨hmem, ⟨hg1, hne⟩, hlt⟩
    · by_cases hg1 : globMatch ("ipython_history_" ++ h ++ "_") ".db" f = true
      · exact Or.inl ⟨hmem, ⟨hg1, hne⟩, hlt⟩
      · refine Or.inr ⟨hmem, ⟨⟨hg2, ?_⟩, hne⟩, hlt⟩
        simp only [Bool.not_eq_eq_eq_not, Bool.not_true, List.contains_eq_any_beq,
          List.any_eq_false]
        intro x hx
        rw [List.mem_filter] at hx
        have := hx.2
        simp only [Bool.and_eq_true] at this
        intro hbeq
        rw [beq_iff_eq] at hbeq
        subst hbeq
        exact hg1 this.1.1

/-- C6 (code bug): for a safe-listed `_completed` file whose stem does not
split into at least 4 fields, `sort_key` falls off the end of the function
and returns `None` instead of the documented `(False, 0)` fallback, so the
catalog's sort raises `TypeError` instead of sorting the file to the end:
with `ipython_history_x_completed.db` alongside one parseable peer file the
catalog fails instead of returning both files. -/
theorem catalog_sort_key_none_bug :
    sort_key "hostA" "ipython_history_x_completed.db" = none ∧
    get_safe_files_for_merge
      ["ipython_history_x_completed.db", "ipython_history_hostB_1_100.db"]
      "hostA" "cur.db" = Except.error () ∧
    "ipython_history_x_completed.db" ∈
      safeFilesUnsorted ["ipython_history_x_completed.db", "ipython_history_hostB_1_100.db"]
        "hostA" "cur.db" :=
  ⟨rfl, rfl, by decide⟩

/-- C9 counterexample: running as host `host_A` (hostname containing the
delimiter), the 4-field parse of that host's own in-progress file
`ipython_history_host_A_123_456.db` does not fail — it extracts the
truncated hostname `host`, so the file is classified as another machine's
and returned as safe, instead of being excluded by the conservative
fallback for unparsable names. -/
theorem underscore_hostname_included_cex :
    get_safe_files_for_merge ["ipython_history_host_A_123_456.db"] "host_A" "cur.db" =
      Except.ok ["ipython_history_host_A_123_456.db"] ∧
    (partsNoReplace "ipython_history_host_A_123_456.db").getD 2 "" = "host" :=
  ⟨rfl, rfl⟩

/-- C9 amended: a name whose hostname field contains `_` still splits into
at least 4 fields, so the parse succeeds with the truncated third token as
hostname and the (correct) trailing token as timestamp: safety selection
includes such a same-host file as if it were foreign, and cleanup parses
its timestamp and deletes it when stale rather than skipping it as
unparsable. -/
theorem underscore_hostname_parse_behavior :
    safeNonCompleted "my_host" "cur.db" "ipython_history_my_host_9_77.db" = true ∧
    parseNameTs "ipython_history_my_host_1_50.db" = some 50 ∧
    cleanup_old_files ["ipython_history_my_host_1_50.db"] "my_host" "cur.db" 1000 300 =
      ["ipython_history_my_host_1_50.db"] :=
  ⟨rfl, rfl, rfl⟩

theorem acc_ids_nodup (l : List (Bool × Session)) (seen : List Sig) (nid : Nat) :
    ((dedupNumber seen nid l).map (fun e => e.1)).Nodup := by
  rw [dedupNumber_ids]
  exact List.nodup_range' _ _

/-- C3: over schema-conforming sources, the merge writes session ids that
form exactly the contiguous range `1..N`, where `N` is the number of
distinct session signatures across all successfully processed sources, and
reports that same `N` as the number of sessions written (the counter starts
at 1 and only ever increments, across source-file boundaries). -/
theorem merge_gap_free_numbering (sources : List SourceFile)
    (hwf : ∀ sf ∈ sources, sf.wfB = true) :
    (merge_histories sources).1.sessions.map (fun r => r.1) =
      List.range' 1 (((flatSessions (filesWithTimes sources)).map sigOfPair).toFinset.card) ∧
    (merge_histories sources).2.2 =
      ((flatSessions (filesWithTimes sources)).map sigOfPair).toFinset.card := by
  have hperm : List.Perm ((flatSessions (sortFiles (filesWithTimes sources))).map sigOfPair)
      ((flatSessions (filesWithTimes sources)).map sigOfPair) :=
    (flatSessions_perm (sortByStable_perm _ _)).map _
  have hcard : ((flatSessions (sortFiles (filesWithTimes sources))).map sigOfPair).toFinset.card
      = ((flatSessions (filesWithTimes sources)).map sigOfPair).toFinset.card :=
    congrArg Finset.card (List.toFinset_eq_of_perm _ _ hperm)
  have hlen : (dedupNumber [] 1 (flatSessions (sortFiles (filesWithTimes sources)))).length
      = ((flatSessions (filesWithTimes sources)).map sigOfPair).toFinset.card := by
    rw [dedupNumber_length_card]
    simpa using hcard
  rw [merge_histories_eq sources hwf]
  refine ⟨?_, hlen⟩
  rw [show (buildTarget (dedupNumber [] 1 (flatSessions (sortFiles (filesWithTimes sources))))).sessions
      = (dedupNumber [] 1 (flatSessions (sortFiles (filesWithTimes sources)))).map entryRow
      from rfl]
  rw [List.map_map,
    show ((fun (r : Nat × Option Int × Option Int × Option Int × Option String) => r.1) ∘ entryRow)
      = (fun (e : Nat × Bool × Session) => e.1) from rfl,
    dedupNumber_ids, hlen]

/-- C3 witness: a concrete three-source run (one source corrupt, one
session duplicated across the two readable sources). -/
theorem merge_gap_free_numbering_witness :
    (merge_histories [demoFileA, demoFileDup, demoCorrupt]).1.sessions.map (fun r => r.1) =
      List.range' 1 (((flatSessions (filesWithTimes [demoFileA, demoFileDup, demoCorrupt])).map
        sigOfPair).toFinset.card) :=
  (merge_gap_free_numbering [demoFileA, demoFileDup, demoCorrupt] (by decide)).1

/-- C2: dedup is purely content-based.  Whenever two (schema-conforming)
sources each contain a session with the same signature — the ordered
command tuples and output tuples after null normalization — regardless of
their original session ids or metadata, the merged target contains exactly
one session whose stored content reads back as that signature. -/
theorem merge_dedup_by_content (sources : List SourceFile)
    (hwf : ∀ sf ∈ sources, sf.wfB = true)
    (sf1 sf2 : SourceFile) (st1 st2 : Store) (s1 s2 : Session) (t1 t2 : Int)
    (h1 : sf1 ∈ sources) (h2 : sf2 ∈ sources)
    (hdb1 : sf1.db = some st1) (hdb2 : sf2.db = some st2)
    (ht1 : fileTimestamp sf1 = some t1) (ht2 : fileTimestamp sf2 = some t2)
    (hs1 : s1 ∈ st1.sessions) (hs2 : s2 ∈ st2.sessions)
    (hsig : sessionSig st1.hasOutputHistory s1 = sessionSig st2.hasOutputHistory s2) :
    ((merge_histories sources).1.sessions.filter (fun r =>
      decide (targetSigOf (merge_histories sources).1 r.1 =
        sessionSig st1.hasOutputHistory s1))).length = 1 := by
  rw [merge_histories_eq sources hwf]
  dsimp only
  set D := dedupNumber [] 1 (flatSessions (sortFiles (filesWithTimes sources))) with hD
  have hnd : (D.map (fun e => e.1)).Nodup := acc_ids_nodup _ [] 1
  have hsignodup : (D.map (fun e => sigOfPair e.2)).Nodup :=
    dedupNumber_sig_nodup (flatSessions (sortFiles (filesWithTimes sources))) [] 1
  have hσ : sessionSig st1.hasOutputHistory s1 ∈
      (flatSessions (sortFiles (filesWithTimes sources))).map sigOfPair :=
    List.mem_map.mpr ⟨(st1.hasOutputHistory, s1),
      mem_flatSessions _ (t1, sf1) (mem_sorted_files sources sf1 t1 h1 ht1) st1 hdb1 s1 hs1, rfl⟩
  obtain ⟨e0, he0, he0sig⟩ := dedupNumber_complete _ [] 1 _ (by simp) hσ
  rw [show (buildTarget D).sessions = D.map entryRow from rfl]
  have hcongr : ∀ e ∈ D,
      ((fun r => decide (targetSigOf (buildTarget D) r.1 =
        sessionSig st1.hasOutputHistory s1)) ∘ entryRow) e =
      (fun a : Nat × Bool × Session =>
        decide (sigOfPair a.2 = sessionSig st1.hasOutputHistory s1)) e := by
    intro e he
    simp only [Function.comp_apply]
    rw [show (entryRow e).1 = e.1 from rfl, targetSigOf_buildTarget _ hnd e he]
  rw [← List.countP_eq_length_filter, List.countP_map, List.countP_eq_length_filter,
    List.filter_congr hcongr]
  exact nodup_filter_length_one (fun e => sigOfPair e.2) D hsignodup _
    (List.mem_map.mpr ⟨e0, he0, he0sig⟩)

/-- C2 witness: two concrete sources holding the same session content under
different original ids and metadata; the merged target stores it once. -/
theorem merge_dedup_by_content_witness :
    ((merge_histories [demoFileA, demoFileDup]).1.sessions.filter (fun r =>
      decide (targetSigOf (merge_histories [demoFileA, demoFileDup]).1 r.1 =
        sessionSig demoStoreA.hasOutputHistory demoSessionA))).length = 1 :=
  merge_dedup_by_content [demoFileA, demoFileDup] (by decide)
    demoFileA demoFileDup demoStoreA demoStoreDup demoSessionA demoSessionDup 100 200
    (by decide) (by decide) rfl rfl rfl rfl (by decide) (by decide) (by decide)

/-- C7: a source that cannot be opened or queried is skipped with the merge
state untouched, and the run still completes: every session of every
readable, timestamped source still has its content present in the merged
target, no matter which corrupt sources sit in the list. -/
theorem merge_corrupt_source_skipped (sources : List SourceFile)
    (hwf : ∀ sf ∈ sources, sf.wfB = true)
    (sfBad : SourceFile) (hbadmem : sfBad ∈ sources) (hbad : sfBad.db = none) :
    (∀ (st : MState) (p : Int × SourceFile), p.2.db = none → processSource st p = st) ∧
    (∀ sf ∈ sources, ∀ store : Store, sf.db = some store → ∀ t : Int,
      fileTimestamp sf = some t → ∀ s ∈ store.sessions,
      ∃ r ∈ (merge_histories sources).1.sessions,
        targetSigOf (merge_histories sources).1 r.1 = sessionSig store.hasOutputHistory s) := by
  constructor
  · intro st p hp
    simp [processSource, hp]
  · intro sf hsf store hdb t ht s hs
    rw [merge_histories_eq sources hwf]
    have hnd : ((dedupNumber [] 1 (flatSessions (sortFiles (filesWithTimes sources)))).map
        (fun e => e.1)).Nodup := acc_ids_nodup _ [] 1
    have hσ : sessionSig store.hasOutputHistory s ∈
        (flatSessions (sortFiles (filesWithTimes sources))).map sigOfPair :=
      List.mem_map.mpr ⟨(store.hasOutputHistory, s),
        mem_flatSessions _ (t, sf) (mem_sorted_files sources sf t hsf ht) store hdb s hs, rfl⟩
    obtain ⟨e0, he0, he0sig⟩ := dedupNumber_complete _ [] 1 _ (by simp) hσ
    refine ⟨entryRow e0, List.mem_map.mpr ⟨e0, he0, rfl⟩, ?_⟩
    rw [show (entryRow e0).1 = e0.1 from rfl, targetSigOf_buildTarget _ hnd e0 he0, he0sig]

/-- C7 witness: a run containing a corrupt source still merges the valid
source's session. -/
theorem merge_corrupt_source_skipped_witness :
    ∃ r ∈ (merge_histories [demoFileA, demoCorrupt]).1.sessions,
      targetSigOf (merge_histories [demoFileA, demoCorrupt]).1 r.1 =
        sessionSig demoStoreA.hasOutputHistory demoSessionA :=
  (merge_corrupt_source_skipped [demoFileA, demoCorrupt] (by decide) demoCorrupt
    (by decide) rfl).2 demoFileA (by decide) demoStoreA rfl 100 rfl demoSessionA (by decide)

/-- C10: each target session stores the metadata of the copy of its content
encountered first in chronological processing order: for every row of the
merged target's `sessions` table there is a first-occurrence decomposition
of the processed session stream whose session carries exactly the stored
metadata, with no earlier session of the same signature. -/
theorem merge_first_metadata (sources : List SourceFile)
    (hwf : ∀ sf ∈ sources, sf.wfB = true) :
    ∀ r ∈ (merge_histories sources).1.sessions,
    ∃ pre1 h s post,
      flatSessions (sortFiles (filesWithTimes sources)) = pre1 ++ (h, s) :: post ∧
      (∀ p ∈ pre1, sigOfPair p ≠ sessionSig h s) ∧
      r.2 = (s.start, s.stop, s.numCmds, s.remark) ∧
      targetSigOf (merge_histories sources).1 r.1 = sessionSig h s := by
  intro r hr
  rw [merge_histories_eq sources hwf] at hr ⊢
  have hnd : ((dedupNumber [] 1 (flatSessions (sortFiles (filesWithTimes sources)))).map
      (fun e => e.1)).Nodup := acc_ids_nodup _ [] 1
  obtain ⟨e, he, rfl⟩ := List.mem_map.mp hr
  obtain ⟨hnot, l1, l2, hsplit, hne⟩ := dedupNumber_first_occ _ [] 1 e he
  refine ⟨l1, e.2.1, e.2.2, l2, hsplit, fun p hp => hne p hp, rfl, ?_⟩
  rw [show (entryRow e).1 = e.1 from rfl, targetSigOf_buildTarget _ hnd e he]
  rfl

/-- C10 witness: in the two-source run merging `demoSessionA` (timestamp
100) before its later copy `demoSessionDup` (timestamp 200, different
metadata), the target row with id 1 stores the first copy's metadata. -/
theorem merge_first_metadata_witness :
    ∃ pre1 h s post,
      flatSessions (sortFiles (filesWithTimes [demoFileA, demoFileDup])) = pre1 ++ (h, s) :: post ∧
      (∀ p ∈ pre1, sigOfPair p ≠ sessionSig h s) ∧
      ((some 10 : Option Int), (some 20 : Option Int), (some 2 : Option Int),
        (none : Option String)) = (s.start, s.stop, s.numCmds, s.remark) ∧
      targetSigOf (merge_histories [demoFileA, demoFileDup]).1 1 = sessionSig h s :=
  merge_first_metadata [demoFileA, demoFileDup] (by decide)
    (1, some 10, some 20, some 2, none) (by decide)

theorem sortFiles_pair (a b : Int × SourceFile) :
    sortFiles [a, b] = if a.1 ≤ b.1 then [a, b] else [b, a] := by
  by_cases h : a.1 ≤ b.1 <;> simp [sortFiles, sortByStable, insertSorted, h]

/-- C4: in a two-source run with derived timestamps `tA < tB` (in either
input order — the merge sorts by the filename-derived timestamp, falling
back to mtime inside `fileTimestamp`) and no session content shared
between the two stores, every session of the older source is present and
receives a strictly smaller target session id than every session of the
newer source. -/
theorem merge_chronological_ids (l : List SourceFile) (sfA sfB : SourceFile)
    (stA stB : Store) (sA sB : Session) (tA tB : Int)
    (hl : l = [sfA, sfB] ∨ l = [sfB, sfA])
    (htA : fileTimestamp sfA = some tA) (htB : fileTimestamp sfB = some tB)
    (hAB : tA < tB)
    (hdbA : sfA.db = some stA) (hdbB : sfB.db = some stB)
    (hwfA : Store.wfB stA = true) (hwfB : Store.wfB stB = true)
    (hdisj : ∀ x ∈ stA.sessions, ∀ y ∈ stB.sessions,
      sessionSig stA.hasOutputHistory x ≠ sessionSig stB.hasOutputHistory y)
    (hsA : sA ∈ stA.sessions) (hsB : sB ∈ stB.sessions) :
    (∃ r ∈ (merge_histories l).1.sessions,
        targetSigOf (merge_histories l).1 r.1 = sessionSig stA.hasOutputHistory sA) ∧
    (∃ r ∈ (merge_histories l).1.sessions,
        targetSigOf (merge_histories l).1 r.1 = sessionSig stB.hasOutputHistory sB) ∧
    (∀ r1 ∈ (merge_histories l).1.sessions, ∀ r2 ∈ (merge_histories l).1.sessions,
      targetSigOf (merge_histories l).1 r1.1 = sessionSig stA.hasOutputHistory sA →
      targetSigOf (merge_histories l).1 r2.1 = sessionSig stB.hasOutputHistory sB →
      r1.1 < r2.1) := by
  have hA : SourceFile.wfB sfA = true := by
    unfold SourceFile.wfB
    rw [hdbA]
    exact hwfA
  have hB : SourceFile.wfB sfB = true := by
    unfold SourceFile.wfB
    rw [hdbB]
    exact hwfB
  have hwfl : ∀ sf ∈ l, sf.wfB = true := by
    intro sf hsf
    have hor : sf = sfA ∨ sf = sfB := by
      rcases hl with rfl | rfl <;>
        simp only [List.mem_cons, List.not_mem_nil, or_false] at hsf <;> tauto
    rcases hor with rfl | rfl
    · exact hA
    · exact hB
  have hsorted : sortFiles (filesWithTimes l) = [(tA, sfA), (tB, sfB)] := by
    rcases hl with rfl | rfl
    · rw [show filesWithTimes [sfA, sfB] = [(tA, sfA), (tB, sfB)] from by
        simp [filesWithTimes, List.filterMap_cons, htA, htB]]
      rw [sortFiles_pair]
      dsimp only
      rw [if_pos (le_of_lt hAB)]
    · rw [show filesWithTimes [sfB, sfA] = [(tB, sfB), (tA, sfA)] from by
        simp [filesWithTimes, List.filterMap_cons, htA, htB]]
      rw [sortFiles_pair]
      dsimp only
      rw [if_neg (not_le.mpr hAB)]
  have hflat : flatSessions (sortFiles (filesWithTimes l)) =
      storeSessions stA ++ storeSessions stB := by
    rw [hsorted]
    simp [flatSessions, List.filterMap_cons, hdbA, hdbB]
  have hnd : ((dedupNumber [] 1 (storeSessions stA) ++
      dedupNumber (dedupState [] 1 (storeSessions stA)).1
        (dedupState [] 1 (storeSessions stA)).2 (storeSessions stB)).map
      (fun e => e.1)).Nodup := by
    rw [← dedupNumber_append]
    exact acc_ids_nodup _ [] 1
  rw [merge_histories_eq l hwfl]
  dsimp only
  rw [hflat, dedupNumber_append]
  set dA := dedupNumber [] 1 (storeSessions stA) with hdAdef
  set seenA := (dedupState [] 1 (storeSessions stA)).1 with hseenAdef
  set nidA := (dedupState [] 1 (storeSessions stA)).2 with hnidAdef
  set dB := dedupNumber seenA nidA (storeSessions stB) with hdBdef
  have hmemA : (stA.hasOutputHistory, sA) ∈ storeSessions stA := by
    simp only [storeSessions, List.mem_map]
    exact ⟨sA, hsA, rfl⟩
  have hmemB : (stB.hasOutputHistory, sB) ∈ storeSessions stB := by
    simp only [storeSessions, List.mem_map]
    exact ⟨sB, hsB, rfl⟩
  have hssA_sig : ∀ σ, σ ∈ (storeSessions stA).map sigOfPair →
      ∃ x ∈ stA.sessions, sessionSig stA.hasOutputHistory x = σ := by
    intro σ hσ
    simp only [storeSessions, List.map_map, List.mem_map, Function.comp_apply] at hσ
    obtain ⟨x, hx, hxe⟩ := hσ
    exact ⟨x, hx, hxe⟩
  have hssB_sig : ∀ σ, σ ∈ (storeSessions stB).map sigOfPair →
      ∃ y ∈ stB.sessions, sessionSig stB.hasOutputHistory y = σ := by
    intro σ hσ
    simp only [storeSessions, List.map_map, List.mem_map, Function.comp_apply] at hσ
    obtain ⟨y, hy, hye⟩ := hσ
    exact ⟨y, hy, hye⟩
  have hAnotB : ∀ e ∈ dB, sigOfPair e.2 ≠ sessionSig stA.hasOutputHistory sA := by
    intro e he hc
    have hpair := dedupNumber_mem_pair (storeSessions stB) seenA nidA e he
    obtain ⟨y, hy, hye⟩ := hssB_sig _ (List.mem_map.mpr ⟨e.2, hpair, rfl⟩)
    exact hdisj sA hsA y hy (hc ▸ hye).symm
  have hBnotA : ∀ e ∈ dA, sigOfPair e.2 ≠ sessionSig stB.hasOutputHistory sB := by
    intro e he hc
    have hpair := dedupNumber_mem_pair (storeSessions stA) [] 1 e he
    obtain ⟨x, hx, hxe⟩ := hssA_sig _ (List.mem_map.mpr ⟨e.2, hpair, rfl⟩)
    exact hdisj x hx sB hsB (hxe.trans hc)
  have hexA : ∃ e ∈ dA, sigOfPair e.2 = sessionSig stA.hasOutputHistory sA := by
    refine dedupNumber_complete _ [] 1 _ (by simp) ?_
    exact List.mem_map.mpr ⟨(stA.hasOutputHistory, sA), hmemA, rfl⟩
  have hσBnotseen : sessionSig stB.hasOutputHistory sB ∉ seenA := by
    rw [hseenAdef]
    intro hc
    rw [dedupState_seen_mem] at hc
    rcases hc with hc | hc
    · simp at hc
    · obtain ⟨x, hx, hxe⟩ := hssA_sig _ hc
      exact hdisj x hx sB hsB hxe
  have hexB : ∃ e ∈ dB, sigOfPair e.2 = sessionSig stB.hasOutputHistory sB := by
    refine dedupNumber_complete _ seenA nidA _ hσBnotseen ?_
    exact List.mem_map.mpr ⟨(stB.hasOutputHistory, sB), hmemB, rfl⟩
  refine ⟨?_, ?_, ?_⟩
  · obtain ⟨e, he, hesig⟩ := hexA
    have hein : e ∈ dA ++ dB := List.mem_append_left _ he
    refine ⟨entryRow e, List.mem_map.mpr ⟨e, hein, rfl⟩, ?_⟩
    rw [show (entryRow e).1 = e.1 from rfl, targetSigOf_buildTarget _ hnd e hein, hesig]
  · obtain ⟨e, he, hesig⟩ := hexB
    have hein : e ∈ dA ++ dB := List.mem_append_right _ he
    refine ⟨entryRow e, List.mem_map.mpr ⟨e, hein, rfl⟩, ?_⟩
    rw [show (entryRow e).1 = e.1 from rfl, targetSigOf_buildTarget _ hnd e hein, hesig]
  · intro r1 hr1 r2 hr2 hsig1 hsig2
    obtain ⟨e1, he1, rfl⟩ := List.mem_map.mp hr1
    obtain ⟨e2, he2, rfl⟩ := List.mem_map.mp hr2
    rw [show (entryRow e1).1 = e1.1 from rfl,
      targetSigOf_buildTarget _ hnd e1 he1] at hsig1
    rw [show (entryRow e2).1 = e2.1 from rfl,
      targetSigOf_buildTarget _ hnd e2 he2] at hsig2
    have he1A : e1 ∈ dA := by
      rcases List.mem_append.mp he1 with h1 | h1
      · exact h1
      · exact absurd hsig1 (hAnotB e1 h1)
    have he2B : e2 ∈ dB := by
      rcases List.mem_append.mp he2 with h2 | h2
      · exact absurd hsig2 (hBnotA e2 h2)
      · exact h2
    have hlt1 : e1.1 < nidA := by
      rw [hnidAdef]
      exact (dedupNumber_id_lt _ [] 1 e1 (hdAdef ▸ he1A)).2
    have hle2 : nidA ≤ e2.1 := (dedupNumber_id_lt _ seenA nidA e2 (hdBdef ▸ he2B)).1
    show e1.1 < e2.1
    exact lt_of_lt_of_le hlt1 hle2

/-- C4 witness: sources given in reverse chronological order; after the
merge's own sort, the timestamp-100 source's session gets id 1 and the
timestamp-200 source's session gets id 2. -/
theorem merge_chronological_ids_witness :
    (∃ r ∈ (merge_histories [demoFileB, demoFileA]).1.sessions,
        targetSigOf (merge_histories [demoFileB, demoFileA]).1 r.1 =
          sessionSig demoStoreA.hasOutputHistory demoSessionA) ∧
    (∃ r ∈ (merge_histories [demoFileB, demoFileA]).1.sessions,
        targetSigOf (merge_histories [demoFileB, demoFileA]).1 r.1 =
          sessionSig demoStoreB.hasOutputHistory demoSessionB) ∧
    (1 : Nat) < 2 := by
  have h := merge_chronological_ids [demoFileB, demoFileA] demoFileA demoFileB
    demoStoreA demoStoreB demoSessionA demoSessionB 100 200 (Or.inr rfl) rfl rfl
    (by decide) rfl rfl (by decide) (by decide) (by decide) (by decide) (by decide)
  exact ⟨h.1, h.2.1,
    h.2.2 (1, some 10, some 20, some 2, none) (by decide)
      (2, none, none, some 1, none) (by decide) (by decide) (by decide)⟩

/-! ## C8: error handling is not all-or-nothing -/

/-- A session whose `history` rows violate the §6 primary key (two rows
with line 1): reading it succeeds, but inserting its second command into
the target raises `sqlite3.IntegrityError`. -/
def badSession : Session :=
  ⟨1, some 0, some 0, some 2, none, [(1, some "a", some "a"), (1, some "b", some "b")], []⟩

def badStore : Store := ⟨false, [badSession]⟩

def badSource : SourceFile := ⟨"ipython_history_hostZ_1_100.db", none, some badStore⟩

/-- C8 counterexample: the failed source's partial work is committed.  The
run over `badSource` alone aborts that source mid-session, yet the target
retains the session's metadata row and its first command (one of two), and
reports 0 sessions written — the target does not contain either all of the
session's rows or none of them. -/
theorem merge_partial_commit_cex :
    merge_histories [badSource] =
      (⟨[(1, some 0, some 0, some 2, none)], [(1, 1, some "a", some "a")], []⟩, 1, 0) ∧
    badSession.commands.length = 2 :=
  ⟨by decide, rfl⟩

/-- C8 amended: when an error occurs while processing a source, the
remaining sessions of that source are skipped, but the state the failing
step left behind — including any rows already inserted for a partially
written session — is kept and committed, not rolled back. -/
theorem merge_error_abandons_rest (st : MState) (hasOut : Bool) (s : Session)
    (rest : List Session) (herr : (processSession st hasOut s).2 = true) :
    processSessions st hasOut (s :: rest) = (processSession st hasOut s).1 := by
  rcases hps : processSession st hasOut s with ⟨st1, b⟩
  rw [hps] at herr
  dsimp only at herr
  subst herr
  simp only [processSessions, hps]

/-- C8 amended, witness: the run on `badSession` errors, skips the rest of
the source, and keeps the partial state. -/
theorem merge_error_abandons_rest_witness :
    processSessions initState false [badSession, demoSessionB] =
      (processSession initState false badSession).1 :=
  merge_error_abandons_rest initState false badSession [demoSessionB] (by decide)

end MT
